import Mathlib

/-!
Verification of the DoctarxAgents core against its design specification.

Shallow embedding of the relevant parts of the source:
* `src/src/protocols/audit-trail.ts` — SHA-256 hash-chained audit ledger;
* `src/src/protocols/bounded-autonomy.ts` — governance engine;
* `src/src/protocols/a2a.ts` — inter-agent message bus;
* the daemon loop's task queue (`DaemonLoop.enqueueTask` / `processQueue`);
* `Orchestrator.executeTask`.

External primitives (the SHA-256 digest from node:crypto, `uuid()`, the wall
clock, JSON serialization) are modelled as explicit parameters or
caller-supplied strings, as is standard for a shallow embedding: every
structural decision of the TypeScript code itself is translated faithfully.
-/

namespace Doctarx

/-! ### Definitions -/

namespace Audit

/-- A persisted row of the `audit_trail` table (columns of the schema in
`initSchema`, lines 46-65).  `timestamp` holds the ISO-8601 string produced by
`toISOString()` and `details` the `JSON.stringify` serialization, both of which
are opaque strings to the ledger logic. -/
structure AuditRow where
  id : String
  seq : Nat
  timestamp : String
  actor : String
  action : String
  target : String
  details : String
  previous_hash : String
  hash : String
deriving DecidableEq, Repr

/-- The genesis value `'0'.repeat(64)` (constructor, line 41). -/
def genesisHash : String := String.mk (List.replicate 64 '0')

/-- The hashed payload string of `record` (line 74) and of the recomputation in
`verifyChain` (line 120):
`previousHash|sequenceNumber|timestamp|actor|action|target|details`. -/
def payloadStr (prev : String) (seq : Nat) (ts actor action target details : String) : String :=
  prev ++ "|" ++ toString seq ++ "|" ++ ts ++ "|" ++ actor ++ "|" ++ action ++ "|" ++ target
    ++ "|" ++ details

/-- The payload recomputed from a persisted row, exactly as `verifyChain`
line 120 rebuilds it from `row.previous_hash` and the row's own columns. -/
def rowPayload (r : AuditRow) : String :=
  payloadStr r.previous_hash r.seq r.timestamp r.actor r.action r.target r.details

/-- In-memory state of an `AuditTrail` instance together with the persisted
table: `sequenceCounter`, `lastHash` (lines 27-28) and the rows of
`audit_trail` in ascending `sequence_number` order (the order in which
`record` inserts them, and the order `verifyChain` selects them). -/
structure AuditState where
  sequenceCounter : Nat
  lastHash : String
  rows : List AuditRow
deriving DecidableEq, Repr

/-- A freshly initialized ledger over an empty table (constructor lines 30-44:
counter 0, genesis last hash). -/
def initState : AuditState := ⟨0, genesisHash, []⟩

/-- The externally supplied inputs of one `record` call: the `uuid()` id, the
`toISOString()` timestamp, and the three caller arguments plus the
JSON-serialized details. -/
structure RecordCall where
  id : String
  timestamp : String
  actor : String
  action : String
  target : String
  details : String
deriving DecidableEq, Repr

/-- `AuditTrail.record` (lines 68-96), parametric in the digest function `H`
(the `createHash('sha256').update(payload).digest('hex')` primitive). -/
def record (H : String → String) (s : AuditState) (c : RecordCall) : AuditRow × AuditState :=
  let seq := s.sequenceCounter + 1
  let pl := payloadStr s.lastHash seq c.timestamp c.actor c.action c.target c.details
  let h := H pl
  let row : AuditRow :=
    ⟨c.id, seq, c.timestamp, c.actor, c.action, c.target, c.details, s.lastHash, h⟩
  (row, ⟨seq, h, s.rows ++ [row]⟩)

/-- A sequence of `record` calls performed on a ledger state. -/
def runRecords (H : String → String) (s : AuditState) : List RecordCall → AuditState
  | [] => s
  | c :: cs => runRecords H (record H s c).2 cs

/-- Result shape of `verifyChain` (line 99). -/
structure VerifyResult where
  valid : Bool
  brokenAt : Option Nat
  totalEntries : Nat
deriving DecidableEq, Repr

/-- The scan loop of `verifyChain` (lines 109-129): starting from the running
hash `prev`, report the sequence number of the first row whose
`previous_hash` link or recomputed hash fails, `none` if all rows check. -/
def verifyFrom (H : String → String) (prev : String) : List AuditRow → Option Nat
  | [] => none
  | r :: rs =>
    if r.previous_hash ≠ prev then some r.seq
    else if r.hash ≠ H (rowPayload r) then some r.seq
    else verifyFrom H r.hash rs

/-- `AuditTrail.verifyChain` (lines 99-132) over the persisted rows. -/
def verifyChain (H : String → String) (rows : List AuditRow) : VerifyResult :=
  { valid := (verifyFrom H genesisHash rows).isNone
    brokenAt := verifyFrom H genesisHash rows
    totalEntries := rows.length }

/-- The running hash after walking `rows` from `prev`: the value `previousHash`
holds when the `verifyChain` loop reaches the end of `rows`. -/
def chainEnd (prev : String) (rows : List AuditRow) : String :=
  rows.foldl (fun _ r => r.hash) prev

/-- An external in-place tamper of the persisted table: replace the `action`
column of the row at position `k` (0-based), leaving every other column and
row unchanged (the `UPDATE audit_trail SET action = ...` of the test suite). -/
def tamperAction : List AuditRow → Nat → String → List AuditRow
  | [], _, _ => []
  | r :: rs, 0, a => { r with action := a } :: rs
  | r :: rs, k + 1, a => r :: tamperAction rs k a

/-- The invariant the `record` path maintains over the persisted table. -/
def ChainInv (H : String → String) (s : AuditState) : Prop :=
  verifyFrom H genesisHash s.rows = none ∧
  s.lastHash = chainEnd genesisHash s.rows ∧
  s.sequenceCounter = s.rows.length ∧
  ∀ k (hk : k < s.rows.length), (s.rows.get ⟨k, hk⟩).seq = k + 1

/-- Two concrete `record` calls used to instantiate the audit theorems. -/
def demoCalls : List RecordCall :=
  [⟨"id1", "2025-01-01T00:00:00.000Z", "system", "boot", "app", "dj1"⟩,
   ⟨"id2", "2025-01-01T00:00:01.000Z", "agent-1", "task_start", "t1", "dj2"⟩]

end Audit

namespace Governance

/-- `riskLevel` values of `ToolDefinition` (src/core types). -/
inductive RiskLevel
  | low
  | medium
  | high
  | critical
deriving DecidableEq, Repr

/-- `AuthorityLevel` (src/core types). -/
inductive AuthorityLevel
  | auto_approve
  | log_only
  | require_approval
  | require_human
deriving DecidableEq, Repr

/-- The governance-relevant fields of a `ToolDefinition`; `description`,
`category`, `inputSchema` and `execute` are never read by the engine. -/
structure ToolDefinition where
  name : String
  requiresApproval : Bool
  riskLevel : RiskLevel
deriving DecidableEq, Repr

/-- `GovernancePolicy` (src/core types): `maxAutoApproveValue` is an optional
numeric field. -/
structure GovernancePolicy where
  riskLevel : RiskLevel
  authority : AuthorityLevel
  maxAutoApproveValue : Option Int := none
  auditRequired : Bool
deriving DecidableEq, Repr

/-- One entry of the engine's in-memory decision log (the wall-clock
`timestamp` field is omitted: it is never read back by the engine). -/
structure Decision where
  tool : String
  decision : AuthorityLevel
  reason : String
deriving DecidableEq, Repr

/-- Association-list lookup mirroring `Map.get` (first entry wins). -/
def lookupA {α : Type} : List (String × α) → String → Option α
  | [], _ => none
  | (k, v) :: rest, key => if k = key then some v else lookupA rest key

/-- Mutable state of a `BoundedAutonomyEngine` instance. -/
structure EngineState where
  policies : List GovernancePolicy
  overrides : List (String × AuthorityLevel)
  auditLog : List Decision
deriving DecidableEq, Repr

/-- The default policy table installed by the constructor (lines 19-24). -/
def defaultPolicies : List GovernancePolicy :=
  [⟨.critical, .require_human, none, true⟩,
   ⟨.high, .require_approval, none, true⟩,
   ⟨.medium, .log_only, none, true⟩,
   ⟨.low, .auto_approve, none, false⟩]

/-- Engine state right after the constructor runs. -/
def initEngine : EngineState := ⟨defaultPolicies, [], []⟩

/-- `BoundedAutonomyEngine.getAuthority` (lines 30-43): a per-tool override
wins first; then an explicit `requiresApproval` flag; then the policy table,
falling back to `require_approval` (all `AuthorityLevel` strings are truthy,
so `policy?.authority || 'require_approval'` is exactly the `find?`
fallback). -/
def getAuthority (s : EngineState) (tool : ToolDefinition) : AuthorityLevel :=
  match lookupA s.overrides tool.name with
  | some a => a
  | none =>
    if tool.requiresApproval then
      if tool.riskLevel = .critical then .require_human else .require_approval
    else
      match s.policies.find? (fun p => decide (p.riskLevel = tool.riskLevel)) with
      | some p => p.authority
      | none => .require_approval

/-- `BoundedAutonomyEngine.canAutoExecute` (lines 46-49). -/
def canAutoExecute (s : EngineState) (tool : ToolDefinition) : Bool :=
  decide (getAuthority s tool = .auto_approve) || decide (getAuthority s tool = .log_only)

/-- `BoundedAutonomyEngine.setOverride` (lines 76-79): `Map.set`, modelled by
replacing any binding for the name and putting the new one in front (the
observable `Map.get` behaviour). -/
def setOverride (s : EngineState) (toolName : String) (a : AuthorityLevel) : EngineState :=
  { s with overrides := (toolName, a) :: s.overrides.filter (fun kv => decide (kv.1 ≠ toolName)) }

/-- `BoundedAutonomyEngine.removeOverride` (lines 82-84). -/
def removeOverride (s : EngineState) (toolName : String) : EngineState :=
  { s with overrides := s.overrides.filter (fun kv => decide (kv.1 ≠ toolName)) }

/-- `BoundedAutonomyEngine.setPolicies` (lines 87-90). -/
def setPolicies (s : EngineState) (policies : List GovernancePolicy) : EngineState :=
  { s with policies := policies }

/-- The length bound of the decision log (lines 68-70): `push` then, if the
length exceeds 10000, keep the last 5000 (`slice(-5000)`). -/
def boundLog (l : List Decision) : List Decision :=
  if 10000 < l.length then l.drop (l.length - 5000) else l

/-- `BoundedAutonomyEngine.recordDecision` (lines 59-73). -/
def recordDecision (s : EngineState) (tool : ToolDefinition) (decision : AuthorityLevel)
    (reason : String) : EngineState :=
  { s with auditLog := boundLog (s.auditLog ++ [⟨tool.name, decision, reason⟩]) }

/-- `BoundedAutonomyEngine.validateValueThreshold` (lines 103-115).  The
JavaScript guard `policy?.maxAutoApproveValue && estimatedValue > …` is truthy
only when the field is present AND nonzero, hence the `v ≠ 0` conjunct. -/
def validateValueThreshold (s : EngineState) (tool : ToolDefinition) (estimatedValue : Int) :
    AuthorityLevel × EngineState :=
  let base := getAuthority s tool
  match s.policies.find? (fun p => decide (p.riskLevel = tool.riskLevel)) with
  | some p =>
    match p.maxAutoApproveValue with
    | some v =>
      if v ≠ 0 ∧ estimatedValue > v then
        let esc : AuthorityLevel :=
          if base = .auto_approve then .require_approval else .require_human
        (esc, recordDecision s tool esc ("Value threshold exceeded: $" ++ toString estimatedValue))
      else (base, s)
    | none => (base, s)
  | none => (base, s)

/-- States reachable from the freshly constructed engine through its public
mutating operations. -/
inductive Reachable : EngineState → Prop
  | init : Reachable initEngine
  | set {s} (n : String) (a : AuthorityLevel) : Reachable s → Reachable (setOverride s n a)
  | remove {s} (n : String) : Reachable s → Reachable (removeOverride s n)
  | policies {s} (ps : List GovernancePolicy) : Reachable s → Reachable (setPolicies s ps)
  | record {s} (t : ToolDefinition) (d : AuthorityLevel) (r : String) :
      Reachable s → Reachable (recordDecision s t d r)
  | threshold {s} (t : ToolDefinition) (v : Int) :
      Reachable s → Reachable (validateValueThreshold s t v).2

/-- A policy table whose `low` policy defines `maxAutoApproveValue = 0`. -/
def zeroThresholdState : EngineState :=
  ⟨[⟨.low, .auto_approve, some 0, false⟩], [], []⟩

/-- A low-risk tool not requiring approval. -/
def lowTool : ToolDefinition := ⟨"cheap_op", false, .low⟩

/-- The default table with `maxAutoApproveValue = 1000` on the `high` policy
(the spec's governance-escalation scenario). -/
def highValueState : EngineState :=
  ⟨[⟨.critical, .require_human, none, true⟩,
    ⟨.high, .require_approval, some 1000, true⟩,
    ⟨.medium, .log_only, none, true⟩,
    ⟨.low, .auto_approve, none, false⟩], [], []⟩

/-- The scenario's tool: riskLevel high, requiresApproval false. -/
def payTool : ToolDefinition := ⟨"payment", false, .high⟩

end Governance

namespace Core

/-- `TaskPriority` (part_005 line 54). -/
inductive TaskPriority
  | critical
  | high
  | medium
  | low
deriving DecidableEq, Repr

/-- `TaskResult` (part_005 lines 136-143).  `output: unknown` is opaque to the
core and modelled by the type parameter `π`. -/
structure TaskResult (π : Type) where
  success : Bool
  output : Option π
  tokensUsed : Nat
  executionTimeMs : Int
  subTasksSpawned : List String
  errors : List String
deriving DecidableEq, Repr

/-- `Task` (part_005 lines 121-134).  The `TaskType` enum and `AgentRole` are
modelled by their string names, `payload` by the opaque parameter `π`, and
`Date` values by integer epoch milliseconds. -/
structure Task (π : Type) where
  id : String
  type : String
  priority : TaskPriority
  title : String
  description : String
  assignedAgent : Option String
  payload : π
  dependencies : List String
  createdAt : Int
  startedAt : Option Int
  completedAt : Option Int
  result : Option (TaskResult π)
deriving DecidableEq, Repr

end Core

namespace Daemon

open Core (TaskPriority TaskResult)

/-- The comparator's rank (`processQueue` lines 375-377:
`priorityOrder = { critical: 0, high: 1, medium: 2, low: 3 }`). -/
def priorityOrder : TaskPriority → Nat
  | .critical => 0
  | .high => 1
  | .medium => 2
  | .low => 3

/-- The sort order of `taskQueue.sort((a, b) => order[a] - order[b])`. -/
def taskLE {π : Type} (a b : Core.Task π) : Prop :=
  priorityOrder a.priority ≤ priorityOrder b.priority

instance {π : Type} : DecidableRel (taskLE (π := π)) :=
  fun a b => Nat.decLe (priorityOrder a.priority) (priorityOrder b.priority)

instance {π : Type} : IsTotal (Core.Task π) taskLE :=
  ⟨fun a b => Nat.le_total (priorityOrder a.priority) (priorityOrder b.priority)⟩

instance {π : Type} : IsTrans (Core.Task π) taskLE :=
  ⟨fun _ _ _ hab hbc => Nat.le_trans hab hbc⟩

/-- One `taskQueue.sort(...)` call.  `Array.prototype.sort` is stable
(ECMAScript 2019), so the unique stable sort — insertion sort — is its
observable behaviour. -/
def sortQueue {π : Type} (q : List (Core.Task π)) : List (Core.Task π) :=
  q.insertionSort taskLE

/-- The drain loop of `processQueue` (lines 373-416) over a fixed pending
queue: each iteration re-sorts by priority and shifts the head; the returned
list is the order in which tasks are handed to `executeTask`. -/
def processOrder {π : Type} (q : List (Core.Task π)) : List (Core.Task π) :=
  match hq : sortQueue q with
  | [] => []
  | t :: rest => t :: processOrder rest
termination_by q.length
decreasing_by
  have hl : (sortQueue q).length = q.length := by simp [sortQueue]
  rw [hq] at hl
  simp at hl
  omega

/-- Boolean predicate "has priority `p`" used to state FIFO-within-a-tier. -/
def hasPriority {π : Type} (p : TaskPriority) (t : Core.Task π) : Bool :=
  decide (t.priority = p)

/-- A task as built by `createTask` with only the fields relevant to queue
ordering varied. -/
def simpleTask (title : String) (p : TaskPriority) : Core.Task Unit :=
  ⟨title, "custom", p, title, "", none, (), [], 0, none, none, none⟩

/-- Processing order produced by four consecutive synchronous `enqueueTask`
calls on an idle daemon.  `enqueueTask` pushes and then calls
`processQueue()`, whose body runs synchronously up to its first `await`
(JavaScript async semantics): the first call finds `processing == false`,
sorts the one-element queue, shifts T1 and suspends awaiting
`executeTask(T1)`; the remaining three calls see `processing == true` and
only push; the `await` cannot resume before the current synchronous sequence
finishes, so the drain then continues over the re-sorted rest. -/
def syncEnqueueOrder {π : Type} (tasks : List (Core.Task π)) : List (Core.Task π) :=
  match tasks with
  | [] => []
  | t :: rest => t :: processOrder rest

end Daemon

namespace Orchestrator

open Core (TaskPriority TaskResult)

/-- `Orchestrator.executeTask`.  The routing decision and the handler call
(`executeDirect` / `spawnSubAgent`) are abstracted into `role` and `outcome`:
a handler that returns normally yields `Except.ok` with its `TaskResult`, a
handler that throws yields `Except.error` with the exception message
(`err instanceof Error ? err.message : String(err)`).  `start` and `tEnd` are
the two `Date.now()` readings.  In the success path the code mutates
`result.executionTimeMs` after assigning `task.result = result`; both refer to
the same object, which the model reflects by storing the updated result. -/
def executeTask {π : Type} (task : Core.Task π) (role : String)
    (outcome : Except String (TaskResult π)) (start tEnd : Int) :
    TaskResult π × Core.Task π :=
  let task₁ := { task with startedAt := some start, assignedAgent := some role }
  match outcome with
  | .ok r =>
    let r' := { r with executionTimeMs := tEnd - start }
    (r', { task₁ with completedAt := some tEnd, result := some r' })
  | .error e =>
    let r : TaskResult π :=
      { success := false, output := none, tokensUsed := 0, executionTimeMs := tEnd - start,
        subTasksSpawned := [], errors := [e] }
    (r, { task₁ with result := some r, completedAt := some tEnd })

end Orchestrator

namespace A2A

/-- `A2AMessage.type`. -/
inductive MsgType
  | request
  | response
  | broadcast
deriving DecidableEq, Repr

/-- `A2AMessage` (part_005 lines 412-420).  The opaque
`payload: Record<string, unknown>` is the type parameter `π`; `timestamp` is
the `Date` as epoch milliseconds (`getTime()`), `ttl` in milliseconds. -/
structure Message (π : Type) where
  id : String
  fromAgent : String
  toAgent : String
  type : MsgType
  payload : π
  timestamp : Int
  ttl : Int
deriving DecidableEq, Repr

/-- State of an `A2AProtocol` instance: per-agent mailboxes in `Map` insertion
order, and the acknowledged-id `Set` in insertion order. -/
structure BusState (π : Type) where
  queues : List (String × List (Message π))
  acknowledged : List String
deriving DecidableEq, Repr

/-- A freshly constructed bus. -/
def initBus (π : Type) : BusState π := ⟨[], []⟩

/-- `Map.get` over the mailbox map. -/
def findQ {π : Type} : List (String × List (Message π)) → String → Option (List (Message π))
  | [], _ => none
  | (k, v) :: rest, key => if k = key then some v else findQ rest key

/-- `this.queues.get(agent) || []`. -/
def getQueue {π : Type} (s : BusState π) (agent : String) : List (Message π) :=
  (findQ s.queues agent).getD []

/-- `Map.set`: update the binding in place, or append a new one at the end
(JS `Map` preserves insertion order). -/
def setQ {π : Type} : List (String × List (Message π)) → String → List (Message π) →
    List (String × List (Message π))
  | [], a, q => [(a, q)]
  | (k, v) :: rest, a, q => if k = a then (a, q) :: rest else (k, v) :: setQ rest a q

/-- `A2AProtocol.send` (lines 30-47): build the request message and push it
onto the recipient's mailbox.  `id` is the external `uuid()`, `ts` the wall
clock. -/
def send {π : Type} (s : BusState π) (fromAgent toAgent : String) (payload : π)
    (ttl : Int) (id : String) (ts : Int) : Message π × BusState π :=
  let msg : Message π := ⟨id, fromAgent, toAgent, .request, payload, ts, ttl⟩
  (msg, { s with queues := setQ s.queues toAgent (getQueue s toAgent ++ [msg]) })

/-- `A2AProtocol.broadcast` (lines 77-96): push onto every existing mailbox
except the sender's. -/
def broadcast {π : Type} (s : BusState π) (fromAgent : String) (payload : π)
    (ttl : Int) (id : String) (ts : Int) : Message π × BusState π :=
  let msg : Message π := ⟨id, fromAgent, "*", .broadcast, payload, ts, ttl⟩
  let queues := s.queues.map (fun kv => if kv.1 = fromAgent then kv else (kv.1, kv.2 ++ [msg]))
  (msg, { s with queues := queues })

/-- `A2AProtocol.acknowledge` (lines 117-119): `Set.add`. -/
def acknowledge {π : Type} (s : BusState π) (msgId : String) : BusState π :=
  if msgId ∈ s.acknowledged then s
  else { s with acknowledged := s.acknowledged ++ [msgId] }

/-- `A2AProtocol.receive` (lines 99-107): non-destructive peek at the `limit`
oldest unacknowledged, unexpired messages; `now` is the `Date.now()` reading.  -/
def receive {π : Type} (s : BusState π) (agentId : String) (limit : Nat) (now : Int) :
    List (Message π) :=
  (((getQueue s agentId).filter (fun m => decide (m.id ∉ s.acknowledged))).filter
      (fun m => decide (now - m.timestamp < m.ttl))).take limit

/-- `A2AProtocol.consume` (lines 110-114): `receive` then acknowledge each
returned message. -/
def consume {π : Type} (s : BusState π) (agentId : String) (limit : Nat) (now : Int) :
    List (Message π) × BusState π :=
  let messages := receive s agentId limit now
  (messages, messages.foldl (fun st m => acknowledge st m.id) s)

/-- `A2AProtocol.registerAgent` (lines 122-126). -/
def registerAgent {π : Type} (s : BusState π) (agentId : String) : BusState π :=
  match findQ s.queues agentId with
  | some _ => s
  | none => { s with queues := s.queues ++ [(agentId, [])] }

/-- The scan of `respond` (lines 52-72): walk the mailboxes in map order and
return the first message whose id matches. -/
def findOriginal {π : Type} : List (String × List (Message π)) → String → Option (Message π)
  | [], _ => none
  | (_, q) :: rest, origId =>
    match q.find? (fun m => decide (m.id = origId)) with
    | some m => some m
    | none => findOriginal rest origId

/-- `A2AProtocol.respond` (lines 50-74): find the original message, push a
`response` annotated with `inReplyTo` onto the original sender's mailbox and
acknowledge the original; `none` (JS `null`) if the id matches nothing.
`withReply pl origId` models the spread `{ ...payload, inReplyTo }`. -/
def respond {π : Type} (withReply : π → String → π) (s : BusState π)
    (originalMsgId fromAgent : String) (payload : π) (ttl : Int) (id : String) (ts : Int) :
    Option (Message π) × BusState π :=
  match findOriginal s.queues originalMsgId with
  | none => (none, s)
  | some original =>
    let response : Message π :=
      ⟨id, fromAgent, original.fromAgent, .response, withReply payload originalMsgId, ts, ttl⟩
    let queues := setQ s.queues original.fromAgent (getQueue s original.fromAgent ++ [response])
    (some response, acknowledge { s with queues := queues } originalMsgId)

/-- The expiry test of `purgeExpired` (line 147): `now − timestamp ≥ ttl`. -/
def expired {π : Type} (now : Int) (m : Message π) : Bool :=
  decide (m.ttl ≤ now - m.timestamp)

/-- `A2AProtocol.purgeExpired` (lines 140-162): drop expired messages from
every mailbox, returning the dropped messages in emission order of the
`a2a:expired` events, and prune the acknowledged set to its most recent 2500
ids when it exceeds 5000. -/
def purgeExpired {π : Type} (s : BusState π) (now : Int) : BusState π × List (Message π) :=
  let queues := s.queues.map (fun kv => (kv.1, kv.2.filter (fun m => ! expired now m)))
  let events := (s.queues.map (fun kv => kv.2.filter (expired now))).join
  let acked := if 5000 < s.acknowledged.length
    then s.acknowledged.drop (s.acknowledged.length - 2500) else s.acknowledged
  (⟨queues, acked⟩, events)

/-- A one-message bus used to instantiate the `respond` miss case. -/
def demoBus : BusState Unit :=
  ⟨[("atlas", [⟨"a1", "hippocrates", "atlas", .request, (), 0, 300000⟩])], []⟩

/- ── Traces of bus operations, for the TTL-expiry claim ── -/
/-- One invocation of a state-changing public operation of the bus, with all
externally supplied data (`uuid()` ids, clock readings) explicit. -/
inductive BusOp (π : Type) where
  | registerOp (agentId : String)
  | sendOp (fromAgent toAgent : String) (payload : π) (ttl : Int) (id : String) (ts : Int)
  | broadcastOp (fromAgent : String) (payload : π) (ttl : Int) (id : String) (ts : Int)
  | respondOp (originalMsgId fromAgent : String) (payload : π) (ttl : Int) (id : String)
      (ts : Int)
  | consumeOp (agentId : String) (limit : Nat) (now : Int)
  | ackOp (msgId : String)
  | purgeOp (now : Int)

/-- Effect of one operation: the next state and the `a2a:expired` events it
emits (only `purgeExpired` emits them, line 148). -/
def stepOp {π : Type} (wr : π → String → π) (s : BusState π) :
    BusOp π → BusState π × List (Message π)
  | .registerOp a => (registerAgent s a, [])
  | .sendOp f t pl ttl id ts => ((send s f t pl ttl id ts).2, [])
  | .broadcastOp f pl ttl id ts => ((broadcast s f pl ttl id ts).2, [])
  | .respondOp o f pl ttl id ts => ((respond wr s o f pl ttl id ts).2, [])
  | .consumeOp a l now => ((consume s a l now).2, [])
  | .ackOp mid => (acknowledge s mid, [])
  | .purgeOp now => purgeExpired s now

/-- Run a trace of operations, collecting the expiration events in order. -/
def runOps {π : Type} (wr : π → String → π) (s : BusState π) :
    List (BusOp π) → BusState π × List (Message π)
  | [] => (s, [])
  | op :: ops =>
    let r := stepOp wr s op
    let r' := runOps wr r.1 ops
    (r'.1, r.2 ++ r'.2)

/-- The ids under which an operation can enqueue a new message. -/
def opNewIds {π : Type} : BusOp π → List String
  | .sendOp _ _ _ _ id _ => [id]
  | .broadcastOp _ _ _ id _ => [id]
  | .respondOp _ _ _ _ id _ => [id]
  | _ => []

/-- The id `m` is never used for a new message anywhere in `ops` (uuid
freshness). -/
def freshFor {π : Type} (m : String) (ops : List (BusOp π)) : Prop :=
  ∀ op ∈ ops, m ∉ opNewIds op

/-- Number of messages with id `m` in a list. -/
def qcount {π : Type} (m : String) (q : List (Message π)) : Nat :=
  (q.filter (fun msg => decide (msg.id = m))).length

/-- Number of queue-resident copies of the message id `m` across all
mailboxes. -/
def copies {π : Type} (m : String) (s : BusState π) : Nat :=
  (s.queues.map (fun kv => qcount m kv.2)).sum

/-- Every resident copy of id `m` carries timestamp `ts` and ttl `ttl`. -/
def Coh {π : Type} (m : String) (ts ttl : Int) (s : BusState π) : Prop :=
  ∀ kv ∈ s.queues, ∀ msg ∈ kv.2, msg.id = m → msg.timestamp = ts ∧ msg.ttl = ttl

/-- The broadcast trace falsifying C7 as stated: two registered recipients,
one broadcast, one purge after expiry. -/
def cexOps : List (BusOp Unit) :=
  [.registerOp "a", .registerOp "b",
   .broadcastOp "s" () 10 "m" 0, .purgeOp 100]

end A2A

/-! ### Theorems -/

namespace Audit

theorem chainEnd_concat (prev : String) (xs : List AuditRow) (r : AuditRow) :
    chainEnd prev (xs ++ [r]) = r.hash := by
  simp [chainEnd, List.foldl_append]

theorem chainEnd_take_succ (prev : String) :
    ∀ (rows : List AuditRow) (k : Nat) (hk : k < rows.length),
      chainEnd prev (rows.take (k + 1)) = (rows.get ⟨k, hk⟩).hash
  | [], k, hk => absurd hk (by simp)
  | r :: rs, 0, _ => by simp [chainEnd]
  | r :: rs, k + 1, hk => by
    have hk' : k < rs.length := by simpa using hk
    simpa [chainEnd] using chainEnd_take_succ r.hash rs k hk'

theorem verifyFrom_append (H : String → String) (xs ys : List AuditRow) (prev : String) :
    verifyFrom H prev (xs ++ ys) =
      match verifyFrom H prev xs with
      | some k => some k
      | none => verifyFrom H (chainEnd prev xs) ys := by
  induction xs generalizing prev with
  | nil => simp [verifyFrom, chainEnd]
  | cons r rs ih =>
    by_cases h1 : r.previous_hash ≠ prev
    · simp [verifyFrom, h1]
    · by_cases h2 : r.hash ≠ H (rowPayload r)
      · simp [verifyFrom, h1, h2]
      · simpa [verifyFrom, h1, h2, chainEnd] using ih r.hash

theorem initState_inv (H : String → String) : ChainInv H initState := by
  refine ⟨rfl, rfl, rfl, ?_⟩
  intro k hk
  simp [initState] at hk

theorem record_inv {H : String → String} {s : AuditState} (hs : ChainInv H s) (c : RecordCall) :
    ChainInv H (record H s c).2 := by
  obtain ⟨h1, h2, h3, h4⟩ := hs
  refine ⟨?_, ?_, ?_, ?_⟩
  · rw [show (record H s c).2.rows = s.rows ++ [(record H s c).1] from rfl,
      verifyFrom_append, h1]
    rw [← h2]
    simp [record, verifyFrom, rowPayload, payloadStr]
  · rw [show (record H s c).2.rows = s.rows ++ [(record H s c).1] from rfl, chainEnd_concat]
    rfl
  · simp [record, h3]
  · intro k hk
    have hk' : k < (s.rows ++ [(record H s c).1]).length := hk
    show ((s.rows ++ [(record H s c).1]).get ⟨k, hk'⟩).seq = k + 1
    rcases Nat.lt_or_ge k s.rows.length with hlt | hge
    · rw [List.get_append k hlt]
      exact h4 k hlt
    · have hlen : k = s.rows.length := by
        simp at hk'
        omega
      subst hlen
      have heq : (s.rows ++ [(record H s c).1]).get ⟨s.rows.length, hk'⟩ = (record H s c).1 := by
        simp
      rw [heq]
      simp [record, h3]

theorem runRecords_inv {H : String → String} :
    ∀ (calls : List RecordCall) (s : AuditState), ChainInv H s → ChainInv H (runRecords H s calls)
  | [], _, hs => hs
  | c :: cs, s, hs => runRecords_inv cs (record H s c).2 (record_inv hs c)

theorem runRecords_length (H : String → String) :
    ∀ (calls : List RecordCall) (s : AuditState),
      (runRecords H s calls).rows.length = s.rows.length + calls.length
  | [], s => by simp [runRecords]
  | c :: cs, s => by
    rw [runRecords, runRecords_length H cs]
    simp [record]
    omega

theorem verifyFrom_ok_get (H : String → String) :
    ∀ (rows : List AuditRow) (prev : String), verifyFrom H prev rows = none →
    ∀ k (hk : k < rows.length),
      (rows.get ⟨k, hk⟩).hash = H (rowPayload (rows.get ⟨k, hk⟩)) ∧
      (rows.get ⟨k, hk⟩).previous_hash = chainEnd prev (rows.take k)
  | [], prev, _, k, hk => absurd hk (by simp)
  | r :: rs, prev, hok, k, hk => by
    rw [verifyFrom] at hok
    by_cases h1 : r.previous_hash ≠ prev
    · simp [h1] at hok
    · by_cases h2 : r.hash ≠ H (rowPayload r)
      · simp [h1, h2] at hok
      · rw [if_neg h1, if_neg h2] at hok
        push_neg at h1 h2
        cases k with
        | zero => exact ⟨h2, by simpa [chainEnd] using h1⟩
        | succ j =>
          have hj : j < rs.length := by simpa using hk
          have ih := verifyFrom_ok_get H rs r.hash hok j hj
          exact ⟨ih.1, by simpa [chainEnd] using ih.2⟩

theorem tamperAction_length : ∀ (rows : List AuditRow) (k : Nat) (a : String),
    (tamperAction rows k a).length = rows.length
  | [], _, _ => rfl
  | _ :: rs, 0, a => by simp [tamperAction]
  | r :: rs, k + 1, a => by simp [tamperAction, tamperAction_length rs k a]

theorem payloadStr_action_inj {prev ts actor tg d : String} {seq : Nat} {a a' : String}
    (h : payloadStr prev seq ts actor a tg d = payloadStr prev seq ts actor a' tg d) :
    a = a' := by
  unfold payloadStr at h
  have h' := congrArg String.data h
  simp only [String.data_append, List.append_assoc] at h'
  simp only [List.append_right_inj, List.append_left_inj] at h'
  exact String.ext h'

theorem verifyFrom_tamper (H : String → String) (hH : Function.Injective H) :
    ∀ (rows : List AuditRow) (prev : String), verifyFrom H prev rows = none →
    ∀ k (hk : k < rows.length) (a : String), a ≠ (rows.get ⟨k, hk⟩).action →
    verifyFrom H prev (tamperAction rows k a) = some ((rows.get ⟨k, hk⟩).seq)
  | [], _, _, k, hk, _, _ => absurd hk (by simp)
  | r :: rs, prev, hok, k, hk, a, ha => by
    rw [verifyFrom] at hok
    by_cases h1 : r.previous_hash ≠ prev
    · simp [h1] at hok
    · by_cases h2 : r.hash ≠ H (rowPayload r)
      · simp [h1, h2] at hok
      · rw [if_neg h1, if_neg h2] at hok
        push_neg at h1 h2
        cases k with
        | zero =>
          have ha' : a ≠ r.action := by simpa using ha
          have hne : rowPayload { r with action := a } ≠ rowPayload r := by
            intro hcontra
            exact ha' (payloadStr_action_inj hcontra)
          have hhash : ¬ ¬ (({ r with action := a } : AuditRow).hash
              ≠ H (rowPayload { r with action := a })) := by
            intro hcon
            push_neg at hcon
            have : H (rowPayload r) = H (rowPayload { r with action := a }) := by
              rw [← h2]
              exact hcon
            exact hne (hH this).symm
          push_neg at hhash
          rw [show tamperAction (r :: rs) 0 a = { r with action := a } :: rs from rfl,
            verifyFrom]
          rw [if_neg (not_ne_iff.mpr h1), if_pos hhash]
          rfl
        | succ j =>
          have hj : j < rs.length := by simpa using hk
          have ih := verifyFrom_tamper H hH rs r.hash hok j hj a (by simpa using ha)
          rw [show tamperAction (r :: rs) (j + 1) a = r :: tamperAction rs j a from rfl,
            verifyFrom]
          rw [if_neg (not_ne_iff.mpr h1), if_neg (not_ne_iff.mpr h2)]
          exact ih

/-- C1: every chain of `record` calls on a fresh ledger verifies as valid with
`totalEntries` the number of calls, and altering the `action` column of any
single persisted row (to a different string) makes `verifyChain` report
`valid = false` with `brokenAt` equal to that row's sequence number (row at
0-based position `k` has sequence number `k + 1`).  The SHA-256 digest is the
external primitive `H`; the tamper detection assumes it is collision-free on
the payloads involved (`Function.Injective H`). -/
theorem audit_chain_tamper_evident (H : String → String) (hH : Function.Injective H)
    (calls : List RecordCall) :
    verifyChain H (runRecords H initState calls).rows = ⟨true, none, calls.length⟩ ∧
    ∀ k (hk : k < (runRecords H initState calls).rows.length) (a : String),
      a ≠ ((runRecords H initState calls).rows.get ⟨k, hk⟩).action →
      verifyChain H (tamperAction (runRecords H initState calls).rows k a)
        = ⟨false, some (k + 1), calls.length⟩ := by
  have hinv := runRecords_inv (H := H) calls initState (initState_inv H)
  obtain ⟨h1, _, h3, h4⟩ := hinv
  have hlen : (runRecords H initState calls).rows.length = calls.length := by
    simpa [initState] using runRecords_length H calls initState
  constructor
  · simp [verifyChain, h1, hlen]
  · intro k hk a ha
    have htam := verifyFrom_tamper H hH _ genesisHash h1 k hk a ha
    have hseq := h4 k hk
    rw [List.get_eq_getElem] at hseq
    simp [verifyChain, htam, tamperAction_length, hlen, hseq]

/-- C2: along any chain of `record` calls on a fresh ledger, the persisted
rows carry gapless sequence numbers `1, 2, …` (position `k` holds number
`k + 1`), the first row's `previous_hash` is the sixty-four-zero genesis
value, each later row's `previous_hash` equals the previous row's `hash`, and
each row's `hash` is the digest `H` of
`previousHash|sequenceNumber|timestamp|actor|action|target|details`. -/
theorem audit_append_invariants (H : String → String) (calls : List RecordCall) :
    (∀ k (hk : k < (runRecords H initState calls).rows.length),
      ((runRecords H initState calls).rows.get ⟨k, hk⟩).seq = k + 1) ∧
    (∀ h0 : 0 < (runRecords H initState calls).rows.length,
      ((runRecords H initState calls).rows.get ⟨0, h0⟩).previous_hash = genesisHash) ∧
    (∀ k (h1 : k + 1 < (runRecords H initState calls).rows.length)
        (h2 : k < (runRecords H initState calls).rows.length),
      ((runRecords H initState calls).rows.get ⟨k + 1, h1⟩).previous_hash
        = ((runRecords H initState calls).rows.get ⟨k, h2⟩).hash) ∧
    (∀ k (hk : k < (runRecords H initState calls).rows.length),
      ((runRecords H initState calls).rows.get ⟨k, hk⟩).hash
        = H (rowPayload ((runRecords H initState calls).rows.get ⟨k, hk⟩))) := by
  have hinv := runRecords_inv (H := H) calls initState (initState_inv H)
  obtain ⟨h1, _, _, h4⟩ := hinv
  refine ⟨h4, ?_, ?_, ?_⟩
  · intro h0
    have := (verifyFrom_ok_get H _ genesisHash h1 0 h0).2
    simpa [chainEnd] using this
  · intro k hk1 hk2
    have := (verifyFrom_ok_get H _ genesisHash h1 (k + 1) hk1).2
    rw [this, chainEnd_take_succ genesisHash _ k hk2]
  · intro k hk
    exact (verifyFrom_ok_get H _ genesisHash h1 k hk).1

theorem audit_chain_tamper_evident_witness :
    verifyChain (fun s => s) (runRecords (fun s => s) initState demoCalls).rows
      = ⟨true, none, 2⟩ ∧
    verifyChain (fun s => s)
        (tamperAction (runRecords (fun s => s) initState demoCalls).rows 1 "tampered")
      = ⟨false, some 2, 2⟩ := by
  have h := audit_chain_tamper_evident (fun s => s) (fun _ _ hab => hab) demoCalls
  exact ⟨h.1, h.2 1 (by decide) "tampered" (by decide)⟩

theorem audit_append_invariants_witness :
    ((runRecords (fun s => s) initState demoCalls).rows.get ⟨0, by decide⟩).seq = 1 ∧
    ((runRecords (fun s => s) initState demoCalls).rows.get
        ⟨0, by decide⟩).previous_hash = genesisHash := by
  have h := audit_append_invariants (fun s => s) demoCalls
  exact ⟨h.1 0 (by decide), h.2.1 (by decide)⟩

end Audit

namespace Governance

/-- C3 counterexample: the claim quantifies over all reachable states,
"including states where setOverride has been called for that tool's name" —
but `getAuthority` consults the override map first (line 32), so an
`auto_approve` override on a critical, approval-requiring tool is returned
as-is.  Reached by `setOverride("t0", auto_approve)` from the fresh engine. -/
theorem governance_critical_override_cex :
    ¬ ∀ s : EngineState, Reachable s → ∀ t : ToolDefinition,
        t.requiresApproval = true → t.riskLevel = .critical →
        getAuthority s t = .require_human := by
  intro h
  have hreach : Reachable (setOverride initEngine "t0" .auto_approve) :=
    Reachable.set "t0" .auto_approve Reachable.init
  have := h (setOverride initEngine "t0" .auto_approve) hreach
    ⟨"t0", true, .critical⟩ rfl rfl
  simp [getAuthority, setOverride, initEngine, lookupA] at this

/-- C3 amended: in every engine state with no override stored for the tool's
name, a tool with `requiresApproval = true` and critical risk gets
`require_human` (this covers every reachable state in which `setOverride` has
not been called, or has been undone by `removeOverride`, for that name). -/
theorem governance_critical_requires_human (s : EngineState) (t : ToolDefinition)
    (hov : lookupA s.overrides t.name = none)
    (hra : t.requiresApproval = true) (hrl : t.riskLevel = .critical) :
    getAuthority s t = .require_human := by
  simp [getAuthority, hov, hra, hrl]

theorem governance_critical_requires_human_witness :
    getAuthority initEngine ⟨"deploy", true, .critical⟩ = .require_human :=
  governance_critical_requires_human initEngine ⟨"deploy", true, .critical⟩ rfl rfl rfl

/-- C4: a stored override wins over every other governance rule — after
`setOverride(name, a)`, `getAuthority` returns `a` for any tool carrying that
name regardless of `requiresApproval` and `riskLevel`; consequently
`canAutoExecute` can be true even for a critical-risk tool that declares
`requiresApproval` (witnessed by an `auto_approve` override in a reachable
state). -/
theorem governance_override_precedence :
    (∀ (s : EngineState) (n : String) (a : AuthorityLevel) (t : ToolDefinition),
      t.name = n → getAuthority (setOverride s n a) t = a) ∧
    (∃ (s : EngineState) (t : ToolDefinition), Reachable s ∧ t.requiresApproval = true ∧
      t.riskLevel = .critical ∧ canAutoExecute s t = true) := by
  constructor
  · intro s n a t hn
    simp [getAuthority, setOverride, lookupA, hn]
  · refine ⟨setOverride initEngine "x" .auto_approve, ⟨"x", true, .critical⟩,
      Reachable.set "x" .auto_approve Reachable.init, rfl, rfl, ?_⟩
    simp [canAutoExecute, getAuthority, setOverride, initEngine, lookupA]

theorem governance_override_precedence_witness :
    getAuthority (setOverride initEngine "x" .log_only) ⟨"x", true, .critical⟩ = .log_only :=
  governance_override_precedence.1 initEngine "x" .log_only ⟨"x", true, .critical⟩ rfl

/-- C6 counterexample: the claim promises escalation whenever the policy
"defines maxAutoApproveValue" and the estimate exceeds it, but the code's
truthiness guard `policy?.maxAutoApproveValue && …` skips a defined threshold
of 0: with `maxAutoApproveValue = 0` and `estimatedValue = 1 > 0` the base
authority is returned un-promoted and no decision-log entry is recorded. -/
theorem governance_value_threshold_cex :
    (zeroThresholdState.policies.find?
        (fun p => decide (p.riskLevel = lowTool.riskLevel))).map
        (fun p => p.maxAutoApproveValue) = some (some 0) ∧
    (1 : Int) > 0 ∧
    validateValueThreshold zeroThresholdState lowTool 1 = (.auto_approve, zeroThresholdState) ∧
    AuthorityLevel.auto_approve ≠ AuthorityLevel.require_approval := by
  refine ⟨by decide, by decide, ?_, by decide⟩
  simp [validateValueThreshold, getAuthority, zeroThresholdState, lowTool, lookupA]

/-- C6 amended: when the policy found for the tool's risk level defines a
NONZERO `maxAutoApproveValue = v` and `estimatedValue > v`, the returned
authority is the base authority promoted one step (`require_approval` if the
base is `auto_approve`, else `require_human`), and exactly one decision-log
entry is appended (subject to the 10000-cap trim), whose reason contains
"Value threshold exceeded". -/
theorem governance_value_threshold (s : EngineState) (t : ToolDefinition)
    (est v : Int) (p : GovernancePolicy)
    (hp : s.policies.find? (fun q => decide (q.riskLevel = t.riskLevel)) = some p)
    (hv : p.maxAutoApproveValue = some v) (hvz : v ≠ 0) (hgt : est > v) :
    (validateValueThreshold s t est).1
      = (if getAuthority s t = .auto_approve then .require_approval else .require_human) ∧
    (validateValueThreshold s t est).2.auditLog
      = boundLog (s.auditLog ++
          [⟨t.name,
            (if getAuthority s t = .auto_approve then .require_approval else .require_human),
            "Value threshold exceeded: $" ++ toString est⟩]) ∧
    ("Value threshold exceeded").data
      <:+: ("Value threshold exceeded: $" ++ toString est).data := by
  refine ⟨?_, ?_, ?_⟩
  · simp [validateValueThreshold, hp, hv, hvz, hgt]
  · simp [validateValueThreshold, hp, hv, hvz, hgt, recordDecision]
  · exact ⟨[], (": $" ++ toString est).data, by simp [String.data_append]⟩

theorem governance_value_threshold_witness :
    (validateValueThreshold highValueState payTool 1500).1 = .require_human ∧
    (validateValueThreshold highValueState payTool 1500).2.auditLog
      = [⟨"payment", .require_human, "Value threshold exceeded: $1500"⟩] := by
  have h := governance_value_threshold highValueState payTool 1500 1000
    ⟨.high, .require_approval, some 1000, true⟩ (by decide) rfl (by decide) (by decide)
  constructor
  · have h1 := h.1
    simpa [getAuthority, highValueState, payTool, lookupA] using h1
  · have h2 := h.2.1
    simpa [getAuthority, highValueState, payTool, lookupA, boundLog] using h2

end Governance

namespace Daemon

open Core (TaskPriority TaskResult)

/-- Draining a fixed queue is one stable sort: re-sorting an already sorted
tail does not change it. -/
theorem processOrder_eq {π : Type} (q : List (Core.Task π)) : processOrder q = sortQueue q := by
  have key : ∀ (n : Nat) (q : List (Core.Task π)), q.length ≤ n → processOrder q = sortQueue q := by
    intro n
    induction n with
    | zero =>
      intro q hq
      have hq0 : q = [] := List.eq_nil_of_length_eq_zero (Nat.le_zero.mp hq)
      subst hq0
      rw [processOrder.eq_def]
      split
      next hnil => exact hnil.symm
      next t rest hcons => exact absurd hcons (by simp [sortQueue])
    | succ n ih =>
      intro q hq
      rw [processOrder.eq_def]
      split
      next hnil => exact hnil.symm
      next t rest hcons =>
        have hsorted : List.Sorted taskLE (t :: rest) := by
          have hs := List.sorted_insertionSort (r := taskLE) q
          rw [show List.insertionSort taskLE q = sortQueue q from rfl, hcons] at hs
          exact hs
        have hlen : rest.length ≤ n := by
          have hl : (sortQueue q).length = q.length := by simp [sortQueue]
          rw [hcons] at hl
          simp at hl
          omega
        have hrest : processOrder rest = rest := by
          rw [ih rest hlen]
          exact List.Sorted.insertionSort_eq hsorted.of_cons
        rw [hrest]
        exact hcons.symm
  exact key q.length q le_rfl

theorem filter_orderedInsert {π : Type} (p : TaskPriority) (a : Core.Task π) :
    ∀ l : List (Core.Task π),
      (List.orderedInsert taskLE a l).filter (hasPriority p)
        = if a.priority = p then a :: l.filter (hasPriority p)
          else l.filter (hasPriority p)
  | [] => by
    by_cases hp : a.priority = p <;>
      simp [List.orderedInsert, List.filter, hasPriority, hp]
  | b :: l => by
    rw [List.orderedInsert]
    by_cases hab : taskLE a b
    · rw [if_pos hab]
      by_cases hp : a.priority = p <;> simp [List.filter, hasPriority, hp]
    · rw [if_neg hab]
      by_cases hp : a.priority = p
      · have hbp : ¬ b.priority = p := by
          intro hbp
          apply hab
          unfold taskLE
          rw [show b.priority = a.priority from hbp.trans hp.symm]
        simp [List.filter, hasPriority, hbp, hp, filter_orderedInsert p a l]
      · by_cases hbp : b.priority = p <;>
          simp [List.filter, hasPriority, hbp, hp, filter_orderedInsert p a l]

theorem filter_sortQueue {π : Type} (p : TaskPriority) :
    ∀ q : List (Core.Task π), (sortQueue q).filter (hasPriority p) = q.filter (hasPriority p)
  | [] => rfl
  | a :: q => by
    rw [show sortQueue (a :: q) = List.orderedInsert taskLE a (sortQueue q) from rfl,
      filter_orderedInsert]
    by_cases hp : a.priority = p <;>
      simp [List.filter, hasPriority, hp, filter_sortQueue p q]

/-- C5 amended: when the four tasks are all pending in the queue at the moment
the worker drains it (for example, enqueued while a previous task was in
flight), the processing order is T2, T4, T3, T1; in general the drain order of
a fixed pending queue is sorted by priority rank (every higher-priority task
before every lower-priority one), keeps insertion order within each priority
tier, and processes exactly the enqueued tasks. -/
theorem daemon_priority_processing :
    processOrder [simpleTask "T1" .low, simpleTask "T2" .critical,
        simpleTask "T3" .medium, simpleTask "T4" .critical]
      = [simpleTask "T2" .critical, simpleTask "T4" .critical,
         simpleTask "T3" .medium, simpleTask "T1" .low] ∧
    (∀ (π : Type) (q : List (Core.Task π)), List.Sorted taskLE (processOrder q)) ∧
    (∀ (π : Type) (q : List (Core.Task π)) (p : TaskPriority),
      (processOrder q).filter (hasPriority p) = q.filter (hasPriority p)) ∧
    (∀ (π : Type) (q : List (Core.Task π)), List.Perm (processOrder q) q) := by
  refine ⟨?_, ?_, ?_, ?_⟩
  · rw [processOrder_eq]
    decide
  · intro π q
    rw [processOrder_eq]
    exact List.sorted_insertionSort (r := taskLE) q
  · intro π q p
    rw [processOrder_eq]
    exact filter_sortQueue p q
  · intro π q
    rw [processOrder_eq]
    exact List.perm_insertionSort (r := taskLE) q

/-- C5 counterexample: enqueueing T1(low), T2(critical), T3(medium),
T4(critical) in that order into an idle daemon processes T1 FIRST — the order
is T1, T2, T4, T3, not the claimed T2, T4, T3, T1, and the low-priority T1 is
processed before the critical T2. -/
theorem daemon_priority_processing_cex :
    syncEnqueueOrder [simpleTask "T1" .low, simpleTask "T2" .critical,
        simpleTask "T3" .medium, simpleTask "T4" .critical]
      = [simpleTask "T1" .low, simpleTask "T2" .critical,
         simpleTask "T4" .critical, simpleTask "T3" .medium] ∧
    syncEnqueueOrder [simpleTask "T1" .low, simpleTask "T2" .critical,
        simpleTask "T3" .medium, simpleTask "T4" .critical]
      ≠ [simpleTask "T2" .critical, simpleTask "T4" .critical,
         simpleTask "T3" .medium, simpleTask "T1" .low] := by
  have h : syncEnqueueOrder [simpleTask "T1" .low, simpleTask "T2" .critical,
      simpleTask "T3" .medium, simpleTask "T4" .critical]
      = simpleTask "T1" .low :: processOrder [simpleTask "T2" .critical,
          simpleTask "T3" .medium, simpleTask "T4" .critical] := rfl
  rw [h, processOrder_eq]
  refine ⟨by decide, by decide⟩

end Daemon

namespace Orchestrator

open Core (TaskPriority TaskResult)

/-- C9: if the handler throws, the returned `TaskResult` has
`success = false` and the exception message in `errors`; whether it throws or
returns, the task's `completedAt` and `result` are set before `executeTask`
returns. -/
theorem orchestrator_execute_marks_complete {π : Type} (task : Core.Task π) (role : String)
    (outcome : Except String (TaskResult π)) (start tEnd : Int) :
    (executeTask task role outcome start tEnd).2.completedAt = some tEnd ∧
    (executeTask task role outcome start tEnd).2.result
      = some (executeTask task role outcome start tEnd).1 ∧
    ∀ e, outcome = .error e →
      (executeTask task role outcome start tEnd).1.success = false ∧
      e ∈ (executeTask task role outcome start tEnd).1.errors := by
  cases outcome with
  | ok r =>
    refine ⟨rfl, rfl, ?_⟩
    intro e he
    cases he
  | error e =>
    refine ⟨rfl, rfl, ?_⟩
    intro e' he'
    cases he'
    exact ⟨rfl, by simp [executeTask]⟩

theorem orchestrator_execute_marks_complete_witness :
    (executeTask (Daemon.simpleTask "T" .medium) "orchestrator"
        (.error "boom") 0 5).1.success = false ∧
    "boom" ∈ (executeTask (Daemon.simpleTask "T" .medium) "orchestrator"
        (.error "boom") 0 5).1.errors ∧
    (executeTask (Daemon.simpleTask "T" .medium) "orchestrator"
        (.error "boom") 0 5).2.completedAt = some 5 := by
  have h := orchestrator_execute_marks_complete (Daemon.simpleTask "T" .medium)
    "orchestrator" (.error "boom") 0 5
  exact ⟨(h.2.2 "boom" rfl).1, (h.2.2 "boom" rfl).2, h.1⟩

end Orchestrator

namespace A2A

theorem findOriginal_eq_none {π : Type} (origId : String) :
    ∀ qs : List (String × List (Message π)),
      (∀ kv ∈ qs, ∀ msg ∈ kv.2, msg.id ≠ origId) → findOriginal qs origId = none
  | [], _ => rfl
  | (k, q) :: rest, h => by
    have hq : q.find? (fun m => decide (m.id = origId)) = none := by
      rw [List.find?_eq_none]
      intro x hx
      simpa using h (k, q) (by simp) x hx
    rw [findOriginal, hq]
    exact findOriginal_eq_none origId rest (fun kv hkv => h kv (by simp [hkv]))

/-- C8: on a fresh bus, after `send("hippocrates","atlas", pl, ttl=300000)`,
`receive("atlas", 20)` (within the ttl) returns exactly that message,
`consume("atlas", 20)` returns the same message and acknowledges its id, and
every subsequent `receive("atlas", limit)` — at any limit and any clock
reading — returns the empty list. -/
theorem bus_send_receive_consume (π : Type) (pl : π) (m : String) (ts now₁ now₂ : Int)
    (h₁ : now₁ - ts < 300000) (h₂ : now₂ - ts < 300000) :
    receive (send (initBus π) "hippocrates" "atlas" pl 300000 m ts).2 "atlas" 20 now₁
      = [(send (initBus π) "hippocrates" "atlas" pl 300000 m ts).1] ∧
    (consume (send (initBus π) "hippocrates" "atlas" pl 300000 m ts).2 "atlas" 20 now₂).1
      = [(send (initBus π) "hippocrates" "atlas" pl 300000 m ts).1] ∧
    m ∈ (consume (send (initBus π) "hippocrates" "atlas" pl 300000 m ts).2
        "atlas" 20 now₂).2.acknowledged ∧
    ∀ (limit : Nat) (now₃ : Int),
      receive (consume (send (initBus π) "hippocrates" "atlas" pl 300000 m ts).2
        "atlas" 20 now₂).2 "atlas" limit now₃ = [] := by
  have hrec : ∀ now : Int, now - ts < 300000 →
      receive (send (initBus π) "hippocrates" "atlas" pl 300000 m ts).2 "atlas" 20 now
        = [(send (initBus π) "hippocrates" "atlas" pl 300000 m ts).1] := by
    intro now hnow
    simp [receive, send, initBus, getQueue, findQ, setQ, List.filter, hnow]
  have hcons : (consume (send (initBus π) "hippocrates" "atlas" pl 300000 m ts).2
      "atlas" 20 now₂).1
      = [(send (initBus π) "hippocrates" "atlas" pl 300000 m ts).1] := by
    simpa [consume] using hrec now₂ h₂
  have hstate : (consume (send (initBus π) "hippocrates" "atlas" pl 300000 m ts).2
      "atlas" 20 now₂).2
      = ⟨[("atlas", [(send (initBus π) "hippocrates" "atlas" pl 300000 m ts).1])], [m]⟩ := by
    show (receive (send (initBus π) "hippocrates" "atlas" pl 300000 m ts).2
        "atlas" 20 now₂).foldl (fun st msg => acknowledge st msg.id)
        (send (initBus π) "hippocrates" "atlas" pl 300000 m ts).2 = _
    rw [hrec now₂ h₂]
    simp [acknowledge, send, initBus, setQ, getQueue, findQ]
  refine ⟨hrec now₁ h₁, hcons, by rw [hstate]; simp, ?_⟩
  intro limit now₃
  rw [hstate]
  simp [receive, getQueue, findQ, List.filter, send]

theorem bus_send_receive_consume_witness :
    receive (send (initBus Unit) "hippocrates" "atlas" () 300000 "m1" 0).2 "atlas" 20 10
      = [(send (initBus Unit) "hippocrates" "atlas" () 300000 "m1" 0).1] ∧
    (consume (send (initBus Unit) "hippocrates" "atlas" () 300000 "m1" 0).2
        "atlas" 20 20).1
      = [(send (initBus Unit) "hippocrates" "atlas" () 300000 "m1" 0).1] ∧
    receive (consume (send (initBus Unit) "hippocrates" "atlas" () 300000 "m1" 0).2
        "atlas" 20 20).2 "atlas" 50 30 = [] := by
  have h := bus_send_receive_consume Unit () "m1" 0 10 20 (by decide) (by decide)
  exact ⟨h.1, h.2.1, h.2.2.2 50 30⟩

/-- C10: `respond` with an id matching no message in any mailbox returns
`null` and leaves the bus unchanged — no reply is enqueued anywhere and
nothing is added to the acknowledged set. -/
theorem bus_respond_unknown (π : Type) (wr : π → String → π) (s : BusState π)
    (origId fromA : String) (pl : π) (ttl : Int) (id : String) (ts : Int)
    (h : ∀ kv ∈ s.queues, ∀ msg ∈ kv.2, msg.id ≠ origId) :
    respond wr s origId fromA pl ttl id ts = (none, s) := by
  rw [respond, findOriginal_eq_none origId s.queues h]

theorem bus_respond_unknown_witness :
    respond (fun p _ => p) demoBus "nope" "atlas" () 300000 "r1" 5 = (none, demoBus) :=
  bus_respond_unknown Unit (fun p _ => p) demoBus "nope" "atlas" () 300000 "r1" 5
    (by decide)

theorem qcount_append {π : Type} (m : String) (q q' : List (Message π)) :
    qcount m (q ++ q') = qcount m q + qcount m q' := by
  simp [qcount, List.filter_append]

theorem qcount_eq_zero {π : Type} {m : String} {q : List (Message π)}
    (h : qcount m q = 0) : ∀ msg ∈ q, msg.id ≠ m := by
  intro msg hmsg hid
  have hmem : msg ∈ q.filter (fun msg => decide (msg.id = m)) :=
    List.mem_filter.mpr ⟨hmsg, by simp [hid]⟩
  unfold qcount at h
  rw [List.length_eq_zero] at h
  rw [h] at hmem
  simp at hmem

theorem copies_setQ {π : Type} (m a : String) (v : List (Message π)) :
    ∀ qs : List (String × List (Message π)),
      ((setQ qs a v).map (fun kv => qcount m kv.2)).sum + qcount m ((findQ qs a).getD [])
        = (qs.map (fun kv => qcount m kv.2)).sum + qcount m v
  | [] => by simp [setQ, findQ, qcount]
  | (k, w) :: rest => by
    by_cases hk : k = a
    · simp [setQ, findQ, hk]
      omega
    · have ih := copies_setQ m a v rest
      simp [setQ, findQ, hk]
      omega

theorem copies_send {π : Type} (m : String) (s : BusState π) (f t : String) (pl : π)
    (ttl : Int) (id : String) (ts : Int) :
    copies m (send s f t pl ttl id ts).2
      = copies m s + qcount m [(⟨id, f, t, .request, pl, ts, ttl⟩ : Message π)] := by
  have h := copies_setQ m t
    ((findQ s.queues t).getD [] ++ [(⟨id, f, t, .request, pl, ts, ttl⟩ : Message π)]) s.queues
  rw [qcount_append] at h
  show ((setQ s.queues t
        ((findQ s.queues t).getD [] ++ [(⟨id, f, t, .request, pl, ts, ttl⟩ : Message π)])).map
      (fun kv => qcount m kv.2)).sum
    = (s.queues.map (fun kv => qcount m kv.2)).sum
      + qcount m [(⟨id, f, t, .request, pl, ts, ttl⟩ : Message π)]
  omega

theorem copies_broadcast {π : Type} {m : String} (s : BusState π) (f : String) (pl : π)
    (ttl : Int) {id : String} (ts : Int) (hid : id ≠ m) :
    copies m (broadcast s f pl ttl id ts).2 = copies m s := by
  show ((s.queues.map (fun kv => if kv.1 = f then kv
        else (kv.1, kv.2 ++ [(⟨id, f, "*", .broadcast, pl, ts, ttl⟩ : Message π)]))).map
      (fun kv => qcount m kv.2)).sum
    = (s.queues.map (fun kv => qcount m kv.2)).sum
  rw [List.map_map]
  congr 1
  apply List.map_congr_left
  intro kv _
  by_cases hk : kv.1 = f
  · simp [Function.comp, hk]
  · simp [Function.comp, hk, qcount_append, qcount, hid]

theorem queues_foldl_ack {π : Type} :
    ∀ (l : List (Message π)) (s : BusState π),
      (l.foldl (fun st msg => acknowledge st msg.id) s).queues = s.queues
  | [], s => rfl
  | msg :: l, s => by
    rw [List.foldl_cons, queues_foldl_ack l]
    unfold acknowledge
    by_cases h : msg.id ∈ s.acknowledged <;> simp [h]

theorem copies_acknowledge {π : Type} (m : String) (s : BusState π) (mid : String) :
    copies m (acknowledge s mid) = copies m s := by
  unfold acknowledge
  by_cases h : mid ∈ s.acknowledged <;> simp [h, copies]

theorem copies_respond {π : Type} {m : String} (wr : π → String → π) (s : BusState π)
    (o f : String) (pl : π) (ttl : Int) {id : String} (ts : Int) (hid : id ≠ m) :
    copies m (respond wr s o f pl ttl id ts).2 = copies m s := by
  unfold respond
  cases hfind : findOriginal s.queues o with
  | none => rfl
  | some orig =>
    show copies m (acknowledge
      ⟨setQ s.queues orig.fromAgent ((findQ s.queues orig.fromAgent).getD []
          ++ [(⟨id, f, orig.fromAgent, .response, wr pl o, ts, ttl⟩ : Message π)]),
        s.acknowledged⟩ o) = copies m s
    rw [copies_acknowledge]
    have h := copies_setQ m orig.fromAgent
      ((findQ s.queues orig.fromAgent).getD []
        ++ [(⟨id, f, orig.fromAgent, .response, wr pl o, ts, ttl⟩ : Message π)]) s.queues
    rw [qcount_append] at h
    have hz : qcount m [(⟨id, f, orig.fromAgent, .response, wr pl o, ts, ttl⟩ : Message π)]
        = 0 := by simp [qcount, hid]
    show ((setQ s.queues orig.fromAgent ((findQ s.queues orig.fromAgent).getD []
          ++ [(⟨id, f, orig.fromAgent, .response, wr pl o, ts, ttl⟩ : Message π)])).map
        (fun kv => qcount m kv.2)).sum
      = (s.queues.map (fun kv => qcount m kv.2)).sum
    omega

theorem copies_registerAgent {π : Type} (m : String) (s : BusState π) (a : String) :
    copies m (registerAgent s a) = copies m s := by
  unfold registerAgent
  cases findQ s.queues a with
  | some _ => rfl
  | none => simp [copies, qcount]

theorem queues_acknowledge {π : Type} (s : BusState π) (mid : String) :
    (acknowledge s mid).queues = s.queues := by
  unfold acknowledge
  by_cases h : mid ∈ s.acknowledged <;> simp [h]

theorem qcount_filter_partition {π : Type} (m : String) (p : Message π → Bool) :
    ∀ q : List (Message π),
      qcount m (q.filter (fun x => ! p x)) + qcount m (q.filter p) = qcount m q
  | [] => rfl
  | x :: q => by
    have ih := qcount_filter_partition m p q
    by_cases hp : p x
    · by_cases hm : x.id = m <;>
        simp [List.filter_cons, qcount, hp, hm] at ih ⊢ <;> omega
    · by_cases hm : x.id = m <;>
        simp [List.filter_cons, qcount, hp, hm] at ih ⊢ <;> omega

theorem qcount_join {π : Type} (m : String) :
    ∀ ls : List (List (Message π)), qcount m ls.join = (ls.map (qcount m)).sum
  | [] => rfl
  | q :: ls => by
    simp [List.join, qcount_append, qcount_join m ls]

theorem purge_copies {π : Type} (m : String) (s : BusState π) (now : Int) :
    copies m (purgeExpired s now).1 + qcount m (purgeExpired s now).2 = copies m s := by
  show ((s.queues.map (fun kv => (kv.1, kv.2.filter (fun x => ! expired now x)))).map
      (fun kv => qcount m kv.2)).sum
    + qcount m ((s.queues.map (fun kv => kv.2.filter (expired now))).join)
    = (s.queues.map (fun kv => qcount m kv.2)).sum
  rw [List.map_map, qcount_join, List.map_map]
  induction s.queues with
  | nil => rfl
  | cons kv qs ih =>
    have hpart := qcount_filter_partition m (expired now) kv.2
    simp only [List.map_cons, List.sum_cons, Function.comp] at ih ⊢
    omega

theorem findQ_mem {π : Type} (a : String) :
    ∀ (qs : List (String × List (Message π))) (v : List (Message π)),
      findQ qs a = some v → (a, v) ∈ qs
  | [], v => by simp [findQ]
  | (k, w) :: rest, v => by
    intro h
    by_cases hk : k = a
    · rw [findQ, if_pos hk] at h
      cases h
      subst hk
      exact List.mem_cons_self _ _
    · rw [findQ, if_neg hk] at h
      exact List.mem_cons_of_mem _ (findQ_mem a rest v h)

theorem mem_setQ {π : Type} {kv : String × List (Message π)} (a : String)
    (v : List (Message π)) :
    ∀ qs : List (String × List (Message π)), kv ∈ setQ qs a v → kv = (a, v) ∨ kv ∈ qs
  | [] => by
    intro h
    simp [setQ] at h
    exact Or.inl h
  | (k, w) :: rest => by
    intro h
    by_cases hk : k = a
    · rw [setQ, if_pos hk] at h
      rcases List.mem_cons.mp h with h | h
      · exact Or.inl h
      · exact Or.inr (List.mem_cons_of_mem _ h)
    · rw [setQ, if_neg hk] at h
      rcases List.mem_cons.mp h with h | h
      · exact Or.inr (h ▸ List.mem_cons_self _ _)
      · rcases mem_setQ a v rest h with h' | h'
        · exact Or.inl h'
        · exact Or.inr (List.mem_cons_of_mem _ h')

theorem Coh_getQueue {π : Type} {m : String} {ts ttl : Int} {s : BusState π}
    (h : Coh m ts ttl s) (a : String) :
    ∀ msg ∈ getQueue s a, msg.id = m → msg.timestamp = ts ∧ msg.ttl = ttl := by
  intro msg hmsg hid
  unfold getQueue at hmsg
  cases hfq : findQ s.queues a with
  | none =>
    rw [hfq] at hmsg
    simp at hmsg
  | some v =>
    rw [hfq] at hmsg
    simp at hmsg
    exact h (a, v) (findQ_mem a s.queues v hfq) msg hmsg hid

theorem Coh_send {π : Type} {m : String} {ts ttl : Int} {s : BusState π} (f t : String)
    (pl : π) (ttl0 : Int) (id : String) (ts0 : Int)
    (hc : Coh m ts ttl s) (hid : id = m → ts0 = ts ∧ ttl0 = ttl) :
    Coh m ts ttl (send s f t pl ttl0 id ts0).2 := by
  intro kv hkv msg hmsg hm
  rcases mem_setQ t (getQueue s t ++ [(⟨id, f, t, .request, pl, ts0, ttl0⟩ : Message π)])
      s.queues hkv with heq | hold
  · subst heq
    rcases List.mem_append.mp hmsg with holdq | hnew
    · exact Coh_getQueue hc t msg holdq hm
    · simp at hnew
      subst hnew
      exact hid hm
  · exact hc kv hold msg hmsg hm

theorem Coh_broadcast {π : Type} {m : String} {ts ttl : Int} {s : BusState π} (f : String)
    (pl : π) (ttl0 : Int) {id : String} (ts0 : Int)
    (hc : Coh m ts ttl s) (hid : id ≠ m) :
    Coh m ts ttl (broadcast s f pl ttl0 id ts0).2 := by
  intro kv hkv msg hmsg hm
  rcases List.mem_map.mp hkv with ⟨kv0, hkv0, heq⟩
  by_cases hk : kv0.1 = f
  · rw [if_pos hk] at heq
    subst heq
    exact hc kv0 hkv0 msg hmsg hm
  · rw [if_neg hk] at heq
    subst heq
    rcases List.mem_append.mp hmsg with holdq | hnew
    · exact hc kv0 hkv0 msg holdq hm
    · simp at hnew
      subst hnew
      exact absurd hm hid

theorem Coh_respond {π : Type} {m : String} {ts ttl : Int} (wr : π → String → π)
    {s : BusState π} (o f : String) (pl : π) (ttl0 : Int) {id : String} (ts0 : Int)
    (hc : Coh m ts ttl s) (hid : id ≠ m) :
    Coh m ts ttl (respond wr s o f pl ttl0 id ts0).2 := by
  unfold respond
  cases hfind : findOriginal s.queues o with
  | none => exact hc
  | some orig =>
    show Coh m ts ttl (acknowledge
      ⟨setQ s.queues orig.fromAgent ((findQ s.queues orig.fromAgent).getD []
          ++ [(⟨id, f, orig.fromAgent, .response, wr pl o, ts0, ttl0⟩ : Message π)]),
        s.acknowledged⟩ o)
    intro kv hkv msg hmsg hm
    rw [queues_acknowledge] at hkv
    rcases mem_setQ orig.fromAgent _ s.queues hkv with heq | hold
    · subst heq
      rcases List.mem_append.mp hmsg with holdq | hnew
      · exact Coh_getQueue hc orig.fromAgent msg holdq hm
      · simp at hnew
        subst hnew
        exact absurd hm hid
    · exact hc kv hold msg hmsg hm

theorem Coh_registerAgent {π : Type} {m : String} {ts ttl : Int} {s : BusState π}
    (a : String) (hc : Coh m ts ttl s) : Coh m ts ttl (registerAgent s a) := by
  unfold registerAgent
  cases findQ s.queues a with
  | some _ => exact hc
  | none =>
    intro kv hkv msg hmsg hm
    rcases List.mem_append.mp hkv with hold | hnew
    · exact hc kv hold msg hmsg hm
    · simp at hnew
      subst hnew
      simp at hmsg

theorem Coh_consume {π : Type} {m : String} {ts ttl : Int} {s : BusState π}
    (a : String) (l : Nat) (now : Int) (hc : Coh m ts ttl s) :
    Coh m ts ttl (consume s a l now).2 := by
  intro kv hkv msg hmsg hm
  rw [show (consume s a l now).2.queues = s.queues
    from queues_foldl_ack (receive s a l now) s] at hkv
  exact hc kv hkv msg hmsg hm

theorem Coh_purge {π : Type} {m : String} {ts ttl : Int} {s : BusState π} (now : Int)
    (hc : Coh m ts ttl s) : Coh m ts ttl (purgeExpired s now).1 := by
  intro kv hkv msg hmsg hm
  rcases List.mem_map.mp hkv with ⟨kv0, hkv0, heq⟩
  subst heq
  exact hc kv0 hkv0 msg (List.mem_of_mem_filter hmsg) hm

theorem purge_kill {π : Type} {m : String} {ts ttl : Int} {s : BusState π}
    (hc : Coh m ts ttl s) {now : Int} (hexp : ttl ≤ now - ts) :
    copies m (purgeExpired s now).1 = 0 := by
  show ((s.queues.map (fun kv => (kv.1, kv.2.filter (fun x => ! expired now x)))).map
      (fun kv => qcount m kv.2)).sum = 0
  rw [List.map_map]
  apply List.sum_eq_zero
  intro x hx
  rcases List.mem_map.mp hx with ⟨kv0, hkv0, heq⟩
  subst heq
  show qcount m (kv0.2.filter (fun x => ! expired now x)) = 0
  unfold qcount
  rw [List.length_eq_zero]
  rw [List.filter_eq_nil_iff]
  intro msg hmsg
  rcases List.mem_filter.mp hmsg with ⟨hmem, hkeep⟩
  simp only [decide_eq_true_eq]
  intro hid
  have hf := hc kv0 hkv0 msg hmem hid
  have hex : expired now msg = true := by
    simp [expired, hf.1, hf.2]
    omega
  rw [hex] at hkeep
  simp at hkeep

theorem Coh_of_copies_zero {π : Type} {m : String} (ts ttl : Int) {s : BusState π}
    (h : copies m s = 0) : Coh m ts ttl s := by
  intro kv hkv msg hmsg hm
  have hq : qcount m kv.2 = 0 := by
    unfold copies at h
    rw [List.sum_eq_zero_iff] at h
    exact h (qcount m kv.2) (List.mem_map_of_mem _ hkv)
  exact absurd hm (qcount_eq_zero hq msg hmsg)

theorem stepOp_inv {π : Type} (wr : π → String → π) {m : String} {ts ttl : Int}
    (s : BusState π) (op : BusOp π) (hfresh : m ∉ opNewIds op) (hc : Coh m ts ttl s) :
    copies m (stepOp wr s op).1 + qcount m (stepOp wr s op).2 = copies m s ∧
    Coh m ts ttl (stepOp wr s op).1 := by
  cases op with
  | registerOp a =>
    refine ⟨?_, Coh_registerAgent a hc⟩
    show copies m (registerAgent s a) + qcount m [] = copies m s
    rw [copies_registerAgent]
    rfl
  | sendOp f t pl ttl0 id ts0 =>
    have hid : id ≠ m := Ne.symm (by simpa [opNewIds] using hfresh)
    constructor
    · show copies m (send s f t pl ttl0 id ts0).2 + qcount m [] = copies m s
      rw [copies_send]
      have hz : qcount m [(⟨id, f, t, .request, pl, ts0, ttl0⟩ : Message π)] = 0 := by
        simp [qcount, hid]
      rw [hz]
      rfl
    · exact Coh_send f t pl ttl0 id ts0 hc (fun h => absurd h hid)
  | broadcastOp f pl ttl0 id ts0 =>
    have hid : id ≠ m := Ne.symm (by simpa [opNewIds] using hfresh)
    constructor
    · show copies m (broadcast s f pl ttl0 id ts0).2 + qcount m [] = copies m s
      rw [copies_broadcast s f pl ttl0 ts0 hid]
      rfl
    · exact Coh_broadcast f pl ttl0 ts0 hc hid
  | respondOp o f pl ttl0 id ts0 =>
    have hid : id ≠ m := Ne.symm (by simpa [opNewIds] using hfresh)
    constructor
    · show copies m (respond wr s o f pl ttl0 id ts0).2 + qcount m [] = copies m s
      rw [copies_respond wr s o f pl ttl0 ts0 hid]
      rfl
    · exact Coh_respond wr o f pl ttl0 ts0 hc hid
  | consumeOp a l now =>
    constructor
    · show copies m (consume s a l now).2 + qcount m [] = copies m s
      have hq : (consume s a l now).2.queues = s.queues :=
        queues_foldl_ack (receive s a l now) s
      unfold copies
      rw [hq]
      rfl
    · exact Coh_consume a l now hc
  | ackOp mid =>
    constructor
    · show copies m (acknowledge s mid) + qcount m [] = copies m s
      rw [copies_acknowledge]
      rfl
    · show Coh m ts ttl (acknowledge s mid)
      intro kv hkv msg hmsg hm
      rw [queues_acknowledge] at hkv
      exact hc kv hkv msg hmsg hm
  | purgeOp now => exact ⟨purge_copies m s now, Coh_purge now hc⟩

theorem runOps_inv {π : Type} (wr : π → String → π) {m : String} {ts ttl : Int} :
    ∀ (ops : List (BusOp π)) (s : BusState π), freshFor m ops → Coh m ts ttl s →
      copies m (runOps wr s ops).1 + qcount m (runOps wr s ops).2 = copies m s ∧
      Coh m ts ttl (runOps wr s ops).1
  | [], s, _, hc => ⟨by simp [runOps, qcount], hc⟩
  | op :: ops, s, hf, hc => by
    have hop := stepOp_inv wr s op (hf op (List.mem_cons_self _ _)) hc
    have hrest := runOps_inv wr ops (stepOp wr s op).1
      (fun o ho => hf o (List.mem_cons_of_mem _ ho)) hop.2
    refine ⟨?_, hrest.2⟩
    show copies m (runOps wr (stepOp wr s op).1 ops).1
        + qcount m ((stepOp wr s op).2 ++ (runOps wr (stepOp wr s op).1 ops).2)
      = copies m s
    rw [qcount_append]
    omega

theorem runOps_append {π : Type} (wr : π → String → π) :
    ∀ (xs ys : List (BusOp π)) (s : BusState π),
      runOps wr s (xs ++ ys)
        = ((runOps wr (runOps wr s xs).1 ys).1,
           (runOps wr s xs).2 ++ (runOps wr (runOps wr s xs).1 ys).2)
  | [], ys, s => by simp [runOps]
  | op :: xs, ys, s => by
    show runOps wr s (op :: (xs ++ ys)) = _
    rw [runOps]
    rw [runOps_append wr xs ys (stepOp wr s op).1]
    simp [runOps, List.append_assoc]

theorem receive_expired_excluded {π : Type} {m : String} {ts ttl : Int} {s : BusState π}
    (hc : Coh m ts ttl s) {now : Int} (hexp : ttl ≤ now - ts) (agent : String)
    (limit : Nat) : ∀ msg ∈ receive s agent limit now, msg.id ≠ m := by
  intro msg hmsg hid
  unfold receive at hmsg
  have h1 := List.mem_of_mem_take hmsg
  rcases List.mem_filter.mp h1 with ⟨h2, h3⟩
  rcases List.mem_filter.mp h2 with ⟨h4, _⟩
  have hf := Coh_getQueue hc agent msg h4 hid
  have hlt := of_decide_eq_true h3
  rw [hf.1, hf.2] at hlt
  omega

/-- C7 amended: for a DIRECTED message (placed by `send` into exactly one
mailbox) with a fresh uuid, at most one `a2a:expired` event ever fires for its
id; exactly one fires as soon as some periodic purge runs at or after the
expiry instant `ts + ttl`; and from any point after the send, once `ttl` has
elapsed the message is returned by `receive` for no actor.  (A broadcast
message is copied into every mailbox and expires once per copy — see the
counterexample.) -/
theorem bus_ttl_expiry (π : Type) (wr : π → String → π)
    (pre post : List (BusOp π)) (f t : String) (pl : π) (ttl : Int) (m : String)
    (ts : Int) (hpre : freshFor m pre) (hpost : freshFor m post) :
    qcount m (runOps wr (initBus π) (pre ++ BusOp.sendOp f t pl ttl m ts :: post)).2 ≤ 1 ∧
    (∀ (p1 p2 : List (BusOp π)) (now : Int), post = p1 ++ BusOp.purgeOp now :: p2 →
      ttl ≤ now - ts →
      qcount m (runOps wr (initBus π) (pre ++ BusOp.sendOp f t pl ttl m ts :: post)).2
        = 1) ∧
    (∀ (mid rest : List (BusOp π)), post = mid ++ rest →
      ∀ (agent : String) (limit : Nat) (now : Int), ttl ≤ now - ts →
      ∀ msg ∈ receive (runOps wr (stepOp wr (runOps wr (initBus π) pre).1
          (BusOp.sendOp f t pl ttl m ts)).1 mid).1 agent limit now, msg.id ≠ m) := by
  have hc0 : Coh m ts ttl (initBus π) := by
    intro kv hkv
    simp [initBus] at hkv
  have hz0 : copies m (initBus π) = 0 := rfl
  have hpre' := runOps_inv wr pre (initBus π) hpre hc0
  have hprec : copies m (runOps wr (initBus π) pre).1 = 0 ∧
      qcount m (runOps wr (initBus π) pre).2 = 0 := by
    have := hpre'.1
    rw [hz0] at this
    omega
  -- the send step
  set s1 := (runOps wr (initBus π) pre).1 with hs1
  have hsend : copies m (stepOp wr s1 (BusOp.sendOp f t pl ttl m ts)).1 = 1 := by
    show copies m (send s1 f t pl ttl m ts).2 = 1
    rw [copies_send]
    have h1 : qcount m [(⟨m, f, t, .request, pl, ts, ttl⟩ : Message π)] = 1 := by
      simp [qcount]
    rw [h1, hprec.1]
  have hcsend : Coh m ts ttl (stepOp wr s1 (BusOp.sendOp f t pl ttl m ts)).1 :=
    Coh_send f t pl ttl m ts hpre'.2 (fun _ => ⟨rfl, rfl⟩)
  set s2 := (stepOp wr s1 (BusOp.sendOp f t pl ttl m ts)).1 with hs2
  -- events of the whole trace
  have hsplit : qcount m (runOps wr (initBus π)
      (pre ++ BusOp.sendOp f t pl ttl m ts :: post)).2
      = qcount m (runOps wr s2 post).2 := by
    rw [runOps_append wr pre (BusOp.sendOp f t pl ttl m ts :: post) (initBus π)]
    show qcount m ((runOps wr (initBus π) pre).2
      ++ ((stepOp wr s1 (BusOp.sendOp f t pl ttl m ts)).2 ++ (runOps wr s2 post).2)) = _
    rw [qcount_append, qcount_append, hprec.2]
    have : qcount m (stepOp wr s1 (BusOp.sendOp f t pl ttl m ts)).2 = 0 := rfl
    rw [this]
    omega
  refine ⟨?_, ?_, ?_⟩
  · rw [hsplit]
    have hrun := runOps_inv wr post s2 hpost hcsend
    rw [hsend] at hrun
    omega
  · intro p1 p2 now hpost_eq hexp
    rw [hsplit, hpost_eq]
    have hf1 : freshFor m p1 := by
      intro o ho
      exact hpost o (by rw [hpost_eq]; exact List.mem_append_left _ ho)
    have hf2 : freshFor m p2 := by
      intro o ho
      refine hpost o ?_
      rw [hpost_eq]
      exact List.mem_append_right _ (List.mem_cons_of_mem _ ho)
    have hrun1 := runOps_inv wr p1 s2 hf1 hcsend
    rw [hsend] at hrun1
    set s3 := (runOps wr s2 p1).1 with hs3
    have hkill : copies m (purgeExpired s3 now).1 = 0 := purge_kill hrun1.2 hexp
    have hpc := purge_copies m s3 now
    have hrun2 := runOps_inv wr p2 (purgeExpired s3 now).1 hf2 (Coh_purge now hrun1.2)
    rw [hkill] at hrun2
    rw [runOps_append wr p1 (BusOp.purgeOp now :: p2) s2]
    show qcount m ((runOps wr s2 p1).2
      ++ ((purgeExpired s3 now).2 ++ (runOps wr (purgeExpired s3 now).1 p2).2)) = 1
    rw [qcount_append, qcount_append]
    omega
  · intro mid rest hpost_eq agent limit now hexp
    have hfmid : freshFor m mid := by
      intro o ho
      exact hpost o (by rw [hpost_eq]; exact List.mem_append_left _ ho)
    have hrun := runOps_inv wr mid s2 hfmid hcsend
    exact receive_expired_excluded hrun.2 hexp agent limit

/-- C7 counterexample: a broadcast message is pushed into every mailbox and
`purgeExpired` emits one `a2a:expired` event per dropped copy, so a broadcast
to two registered agents fires TWO expiration events for the one message id —
not exactly once as claimed. -/
theorem bus_ttl_expiry_cex :
    qcount "m" (runOps (fun (p : Unit) _ => p) (initBus Unit) cexOps).2 = 2 ∧
    (2 : Nat) ≠ 1 := by
  constructor
  · rfl
  · decide

theorem bus_ttl_expiry_witness :
    qcount "m" (runOps (fun (p : Unit) _ => p) (initBus Unit)
      ([] ++ BusOp.sendOp "hippocrates" "atlas" () 10 "m" 0 :: [BusOp.purgeOp 10])).2
      = 1 := by
  have h := bus_ttl_expiry Unit (fun p _ => p) [] [BusOp.purgeOp 10]
    "hippocrates" "atlas" () 10 "m" 0
    (by intro op hop; simp at hop)
    (by
      intro op hop
      simp at hop
      subst hop
      simp [opNewIds])
  exact h.2.1 [] [] 10 rfl (by decide)

end A2A

end Doctarx
